import Mathlib

/-!
Verification development for the Newick / jplace tree parsing and layout
library (files `tree_base.py`, `newick_parser_lite.py`,
`tree/newick_parser_lite.py`, `jplace_tree.py`).

The Python code is shallowly embedded: mutable tree nodes become an
inductive tree type, the parser's mutable `top`-pointer walk becomes a
zipper (current frame plus a stack of ancestor frames), Python `float`
values are modelled as exact rationals, and raised exceptions become
`Except` error values.
-/

/-! ## Part 1: `tree_base.py` — `TreeNodeBase.add_child` and the cached
subtree-node count.

`TreeNodeBase.__init__` sets `__n_subtree_nodes = 0`;
`_lazy_count_subtree_nodes` recomputes
`sum([i.n_subtree_nodes for i in self.children]) + self.n_children`;
`add_child` appends the child, then walks from `self` up to the root
re-running `_lazy_count_subtree_nodes` on every node on that path
(`_recount_subtree_nodes_recup`).  The identical logic appears in
`newick_parser_lite.py` (`NewickTreeNodeBase.add_child`).

A node is modelled by its cached count plus its ordered children; the
parent back-reference is implicit (a node is addressed by the path of
child indices from the root). -/

inductive TNode where
  | mk (cnt : Nat) (children : List TNode)

/-- The cached `__n_subtree_nodes` value of a node. -/
def TNode.cnt : TNode → Nat
  | .mk c _ => c

/-- The children list of a node. -/
def TNode.childList : TNode → List TNode
  | .mk _ ch => ch

/-- `TreeNodeBase._lazy_count_subtree_nodes`: the value written into the
cache, computed from the direct children only:
`sum(i.n_subtree_nodes for i in children) + len(children)`. -/
def lazy_count_subtree_nodes (ch : List TNode) : Nat :=
  (ch.map TNode.cnt).sum + ch.length

/-- Replace the element at index `i` (no-op when out of range); used to
address the node an `add_child` call is performed on. -/
def listModify (f : TNode → TNode) : Nat → List TNode → List TNode
  | _, [] => []
  | 0, x :: xs => f x :: xs
  | n + 1, x :: xs => x :: listModify f n xs

/-- A freshly constructed `TreeNodeBase()`: no children, cached count 0. -/
def freshTNode : TNode := .mk 0 []

/-- `TreeNodeBase.add_child`, performed on the node at path `p` from the
root of `t`: the child is appended to that node's children list and the
cache is recomputed by `_lazy_count_subtree_nodes` at that node and at
every ancestor on the way back to the root (the upward recursion of
`_recount_subtree_nodes_recup`, which here happens while rebuilding the
spine). -/
def add_child : TNode → List Nat → TNode → TNode
  | .mk _ ch, [], node =>
    let ch' := ch ++ [node]
    .mk (lazy_count_subtree_nodes ch') ch'
  | .mk _ ch, i :: p, node =>
    let ch' := listModify (fun t => add_child t p node) i ch
    .mk (lazy_count_subtree_nodes ch') ch'

/-- A sequence of `add_child` calls: each operation gives the path of the
node the method is invoked on and the child node passed to it. -/
def add_child_seq (t : TNode) (ops : List (List Nat × TNode)) : TNode :=
  ops.foldl (fun acc op => add_child acc op.1 op.2) t

mutual
/-- The invariant the code actually maintains: at every node the cached
count equals `_lazy_count_subtree_nodes` of its children, i.e.
`cnt = sum(child.cnt) + len(children)` — the number of proper
descendants, the node itself not included. -/
def codeCountInv : TNode → Bool
  | .mk c ch => (c == lazy_count_subtree_nodes ch) && codeCountInvAll ch

def codeCountInvAll : List TNode → Bool
  | [] => true
  | t :: ts => codeCountInv t && codeCountInvAll ts
end

mutual
/-- The invariant as the specification states it:
`subtree_node_count(n) = 1 + sum(subtree_node_count(c) for c in children)`
at every node (counting the node itself plus all descendants). -/
def specCountInv : TNode → Bool
  | .mk c ch => (c == 1 + (ch.map TNode.cnt).sum) && specCountInvAll ch

def specCountInvAll : List TNode → Bool
  | [] => true
  | t :: ts => specCountInv t && specCountInvAll ts
end

theorem codeCountInvAll_iff (l : List TNode) :
    codeCountInvAll l = true ↔ ∀ x ∈ l, codeCountInv x = true := by
  induction l with
  | nil => simp [codeCountInvAll]
  | cons t ts ih =>
    simp [codeCountInvAll, Bool.and_eq_true, ih]

theorem codeCountInv_mk (c : Nat) (ch : List TNode) :
    codeCountInv (.mk c ch) = true ↔
      c = lazy_count_subtree_nodes ch ∧ codeCountInvAll ch = true := by
  simp [codeCountInv, Bool.and_eq_true]

theorem codeCountInvAll_append (a b : List TNode) :
    codeCountInvAll (a ++ b) = true ↔
      codeCountInvAll a = true ∧ codeCountInvAll b = true := by
  induction a with
  | nil => simp [codeCountInvAll]
  | cons t ts ih => simp [codeCountInvAll, Bool.and_eq_true, ih, and_assoc]

theorem codeCountInvAll_listModify (f : TNode → TNode) (i : Nat)
    (l : List TNode) (hl : codeCountInvAll l = true)
    (hf : ∀ x, codeCountInv x = true → codeCountInv (f x) = true) :
    codeCountInvAll (listModify f i l) = true := by
  induction l generalizing i with
  | nil => simpa [listModify] using hl
  | cons t ts ih =>
    rw [codeCountInvAll, Bool.and_eq_true] at hl
    cases i with
    | zero =>
      rw [listModify, codeCountInvAll, Bool.and_eq_true]
      exact ⟨hf t hl.1, hl.2⟩
    | succ n =>
      rw [listModify, codeCountInvAll, Bool.and_eq_true]
      exact ⟨hl.1, ih n hl.2⟩

theorem add_child_preserves_inv (p : List Nat) (t c : TNode)
    (ht : codeCountInv t = true) (hc : codeCountInv c = true) :
    codeCountInv (add_child t p c) = true := by
  induction p generalizing t with
  | nil =>
    obtain ⟨cnt, ch⟩ := t
    rw [codeCountInv_mk] at ht
    rw [add_child, codeCountInv_mk]
    refine ⟨rfl, ?_⟩
    rw [codeCountInvAll_append]
    exact ⟨ht.2, by simp [codeCountInvAll, hc]⟩
  | cons i is ih =>
    obtain ⟨cnt, ch⟩ := t
    rw [codeCountInv_mk] at ht
    rw [add_child, codeCountInv_mk]
    exact ⟨rfl, codeCountInvAll_listModify _ i ch ht.2 (fun x hx => ih x hx)⟩

/-- C1 (amended): the invariant preserved by every sequence of `add_child`
calls is `cnt(n) = sum(cnt(c) for c in children) + len(children)` at every
node — the cache counts all proper descendants of `n`, excluding `n`
itself (equivalently `cnt(n) = sum(1 + cnt(c) for c in children)`), and
each `add_child` call re-establishes this equation at the modified node
and at every ancestor up to the root.  The specification's equation
`cnt(n) = 1 + sum(cnt(c))` is not the one maintained (see the
counterexample). -/
theorem add_child_seq_count_invariant (t : TNode) (ops : List (List Nat × TNode))
    (ht : codeCountInv t = true)
    (hops : ∀ op ∈ ops, codeCountInv op.2 = true) :
    codeCountInv (add_child_seq t ops) = true := by
  induction ops generalizing t with
  | nil => simpa [add_child_seq] using ht
  | cons op ops ih =>
    rw [add_child_seq, List.foldl_cons]
    exact ih _ (add_child_preserves_inv op.1 t op.2 ht (hops op (by simp)))
      (fun o ho => hops o (by simp [ho]))

/-- Witness for `add_child_seq_count_invariant`: a root to which a child
is attached, then a grandchild under that child. -/
theorem add_child_seq_count_invariant_witness :
    codeCountInv (add_child_seq freshTNode
      [([], freshTNode), ([0], freshTNode)]) = true :=
  add_child_seq_count_invariant freshTNode
    [([], freshTNode), ([0], freshTNode)] (by decide) (by decide)

/-- C1 counterexample: after the single call `root.add_child(fresh_node)`
(both nodes freshly constructed), the specified equation
`subtree_node_count(n) = 1 + sum(subtree_node_count(c))` fails — the
attached leaf carries cached count 0, not 1. -/
theorem spec_count_invariant_fails :
    specCountInv (add_child_seq freshTNode [([], freshTNode)]) = false := by
  decide

/-! ## Part 2: `newick_parser_lite.py` — the single-pass Newick parser.

The same parser appears in `src/newick_parser_lite.py` and (delegating the
node bookkeeping to `tree_base.py`) in `src/tree/newick_parser_lite.py`;
the two `parse` bodies are character-for-character identical, so one
embedding covers both.

A parsed node carries a decoder payload, the `start`/`end` character
offsets the parser records, and the ordered children.  Python exceptions
are modelled as `PErr` values; `parse` is generic in the payload type and
in `handler_bare_text` (the pluggable decoder), exactly as the source is
generic in `node_t` / `node_type`.

The mutable `top` pointer walking a parent-linked tree is modelled as a
zipper: the frame currently being filled plus the stack of ancestor
frames (`stack.head` = parent, `stack` last entry = root).  The
`__n_subtree_nodes` bookkeeping of `add_child` (Part 1) is independent of
the parse control flow and payloads and is not repeated here; the
junk-before-`(` warning is a non-fatal side channel and is likewise
dropped (the junk text is discarded exactly as in the source). -/

/-- Python exceptions surfaced by the parser and the decoders. -/
inductive PErr where
  /-- `NewickFormatError("expected separator between two nodes ...")`,
  raised by `parser_add_child` with the new child's start offset. -/
  | sepExpected (pos : Nat)
  /-- `NewickFormatError("orphan ')' encountered at c: %d")`. -/
  | orphan (pos : Nat)
  /-- `NewickFormatError("expected ')' to close '(' at c: %d")`, carrying
  the unclosed group's start offset. -/
  | unclosed (pos : Nat)
  /-- `RuntimeError("use parse() on a non-emptry tree is prohibited")`. -/
  | reparse
  /-- `NameError`: the loop variable `pos` is read after the
  `for pos, c in enumerate(s)` loop ran zero times (empty input). -/
  | nameError
  /-- `IndexError` from `self.children[-1]` on an empty children list
  (unreachable per the invariant noted in `parser_put_bare_text`). -/
  | indexError
  /-- `JplaceTreeFormatError` raised by the annotated decoder. -/
  | fmtError
  /-- `ValueError` (tuple unpacking of `s.split(":")`, or `float()` on a
  malformed literal) escaping the annotated decoder uncaught. -/
  | valueError
  /-- `AssertionError` from the duplicate-id check in
  `JplaceTree.parse`. -/
  | assertError
deriving Repr, DecidableEq

/-- `NewickFormatError` and its subclass `JplaceTreeFormatError` form the
parser's format-error family; the other constructors model unrelated
Python exception types. -/
def PErr.isFormatError : PErr → Bool
  | .sepExpected _ => true
  | .orphan _ => true
  | .unclosed _ => true
  | .fmtError => true
  | _ => false

/-- A fully built node: decoder payload, the `start`/`end` offsets the
parser assigns (`none` = attribute never set), and the ordered
children. -/
inductive PN (α : Type) where
  | mk (pay : α) (startp : Option Nat) (endp : Option Nat)
       (children : List (PN α))

def PN.pay : PN α → α
  | .mk p _ _ _ => p

def PN.startp : PN α → Option Nat
  | .mk _ s _ _ => s

def PN.endp : PN α → Option Nat
  | .mk _ _ e _ => e

def PN.children : PN α → List (PN α)
  | .mk _ _ _ c => c

/-- A node still being filled by the parser: its payload, `start` offset,
its `__ready_for_next_node` flag and the children added so far. -/
structure Frame (α : Type) where
  pay : α
  startp : Option Nat
  ready : Bool
  children : List (PN α)

/-- `children[-1]`. -/
def lastChild? : List (PN α) → Option (PN α)
  | [] => none
  | [x] => some x
  | _ :: xs => lastChild? xs

/-- `NewickTreeNodeBase.parser_put_bare_text(pos, s)` acting on the
current (`top`) frame, with `handler_bare_text` abstracted as `dec` and
`type(self)()` construction abstracted as the fresh payload `fr`:

* if `__ready_for_next_node` is set, a new node is created with
  `start, end = pos, pos + len(s)`, its `handler_bare_text(s)` runs, and
  `parser_add_child` appends it (the separator check passes — the flag is
  set — and the flag is cleared);
* otherwise the text is handed to `children[-1].handler_bare_text(s)`
  (the list is never empty here, per the comment in the source; an empty
  list would be Python's `IndexError`).

A decoder error aborts the call with the node unchanged (in Python an
exception aborts `parse` as a whole, so attribute writes the decoder did
before raising are never observable through a returned tree). -/
def parser_put_bare_text (dec : α → List Char → Except PErr α) (fr : α)
    (pos : Nat) (txt : List Char) (f : Frame α) : Except PErr (Frame α) :=
  if f.ready then
    match dec fr txt with
    | .error e => .error e
    | .ok pay =>
      .ok { f with
            children := f.children ++ [.mk pay (some pos) (some (pos + txt.length)) []],
            ready := false }
  else
    match lastChild? f.children with
    | none => .error .indexError
    | some (.mk p st en sub) =>
      match dec p txt with
      | .error e => .error e
      | .ok pay' =>
        .ok { f with children := f.children.dropLast ++ [.mk pay' st en sub] }

/-- Rebuild the partially constructed root from the zipper at the moment
an exception aborts `parse`: every still-open frame keeps its `end`
attribute unset and sits as the last child of its parent (which is where
`parser_add_child` placed it when its `(` was read). -/
def materialize : Frame α → List (Frame α) → PN α
  | f, [] => .mk f.pay f.startp none f.children
  | f, p :: ps =>
    materialize { p with children := p.children ++ [.mk f.pay f.startp none f.children] } ps

/-- One iteration of the `for pos, c in enumerate(s)` loop of
`NewickTreeBase.parse`, acting on the loop state (pending bare-text run
`s[last_pos:pos]`, the `top` frame, the stack of its ancestors):

* `(`: any pending junk text is discarded with a warning; then
  `top.parser_add_child(new_node)` — failing with the separator
  `NewickFormatError` if `top` is not ready — attaches a fresh node with
  `start = pos`, which becomes the new `top` (ready, no children);
* `,`: the pending run is delivered by `parser_put_bare_text`, then
  `parser_add_separator` sets the ready flag;
* `)`: with `top` at the root, the orphan `NewickFormatError`; otherwise
  `top.end = pos + 1` is recorded, the pending run is delivered to `top`,
  and `top` ascends: the finished node takes its place as the last child
  of its parent (where `parser_add_child` put it when its `(` was read);
* any other character extends the pending run.

An exception leaves the frames as they were when it was raised. -/
def parseStep (dec : α → List Char → Except PErr α) (fr : α) (c : Char)
    (pos : Nat) (pending : List Char) (cur : Frame α)
    (stack : List (Frame α)) :
    Except PErr (List Char × Frame α × List (Frame α)) :=
  if c = '(' then
    if cur.ready then
      .ok ([], ⟨fr, some pos, true, []⟩, { cur with ready := false } :: stack)
    else
      .error (.sepExpected pos)
  else if c = ',' then
    match parser_put_bare_text dec fr pos pending cur with
    | .error e => .error e
    | .ok cur' => .ok ([], { cur' with ready := true }, stack)
  else if c = ')' then
    match stack with
    | [] => .error (.orphan pos)
    | parent :: stk =>
      match parser_put_bare_text dec fr pos pending cur with
      | .error e => .error e
      | .ok cur' =>
        .ok ([],
          { parent with
            children := parent.children
              ++ [.mk cur'.pay cur'.startp (some (pos + 1)) cur'.children] },
          stk)
  else
    .ok (pending ++ [c], cur, stack)

/-- The character loop itself: `parseStep` per character, threading the
position; on an exception the frames at that moment are returned for
materialization, on exhaustion the final pending run, `top` and the
stack. -/
def parseLoop (dec : α → List Char → Except PErr α) (fr : α) :
    List Char → Nat → List Char → Frame α → List (Frame α) →
    Except (PErr × Frame α × List (Frame α))
           (List Char × Frame α × List (Frame α))
  | [], _, pending, cur, stack => .ok (pending, cur, stack)
  | c :: rest, pos, pending, cur, stack =>
    match parseStep dec fr c pos pending cur stack with
    | .error e => .error (e, cur, stack)
    | .ok (pending', cur', stack') =>
      parseLoop dec fr rest (pos + 1) pending' cur' stack'

/-- `NewickTreeBase.parse(s)` on an empty tree instance: the root frame is
created with `start = last_pos = 0`, the character loop runs, then the
unmatched-`(` check, then `root.parser_put_bare_text(pos, s[last_pos:])`
— whose evaluation of `pos` is a `NameError` when the loop never ran —
and finally `root.end = len(s)`.  On an exception the partially built
root is returned alongside the error (`parse` raised, but the tree
instance keeps it; see `parseOn`). -/
def parseFull (dec : α → List Char → Except PErr α) (fr : α) (s : String) :
    Except (PErr × PN α) (PN α) :=
  match parseLoop dec fr s.data 0 [] ⟨fr, some 0, true, []⟩ [] with
  | .error (e, cur, stack) => .error (e, materialize cur stack)
  | .ok (pending, cur, stack) =>
    match stack with
    | f :: fs =>
      .error (.unclosed (cur.startp.getD 0), materialize cur (f :: fs))
    | [] =>
      if s.data.isEmpty then .error (.nameError, materialize cur [])
      else
        match parser_put_bare_text dec fr (s.data.length - 1) pending cur with
        | .error e => .error (e, materialize cur [])
        | .ok cur' => .ok (.mk cur'.pay cur'.startp (some s.data.length) cur'.children)

/-- `parse` as seen by a caller that only observes the outcome: the
returned tree, or the exception. -/
def parse (dec : α → List Char → Except PErr α) (fr : α) (s : String) :
    Except PErr (PN α) :=
  (parseFull dec fr s).mapError Prod.fst

/-- One `parse(s)` call on a tree instance whose state is its `root`
attribute (`none` = freshly constructed).  `parse` first checks
`self.root is not None` and raises the re-parse `RuntimeError`; otherwise
the root is created and attached *before* the first character is
processed, so the instance ends up holding a root even when the parse
aborts.  Returns the instance state after the call and the call's
outcome. -/
def parseOn (dec : α → List Char → Except PErr α) (fr : α)
    (st : Option (PN α)) (s : String) : Option (PN α) × Except PErr (PN α) :=
  match st with
  | some r => (some r, .error .reparse)
  | none =>
    match parseFull dec fr s with
    | .ok t => (some t, .ok t)
    | .error (e, r) => (some r, .error e)

/-! ### The plain decoder (`NewickTreeLiteNode`) -/

/-- `NewickTreeLiteNode.handler_bare_text`: `self.text = s`, overwriting
any earlier value; the payload is `none` while `_text` was never
assigned. -/
def handler_bare_text_lite : Option (List Char) → List Char → Except PErr (Option (List Char)) :=
  fun _ s => .ok (some s)

/-- A freshly constructed `NewickTreeLiteNode()`: `_text` unset. -/
def freshLite : Option (List Char) := none

/-- `NewickTreeLite.load_string(s)` seen as outcome only. -/
def parseLite (s : String) : Except PErr (PN (Option (List Char))) :=
  parse handler_bare_text_lite freshLite s

/-! ## Part 3: `jplace_tree.py` — the annotated decoder, the id index and
the geometry passes.

Python `float` values (branch lengths, positions) are modelled as exact
rationals; the decimal literals the decoder accepts are translated
exactly. -/

/-- The decoded payload of a `JplaceTreeNodeGeo`, with the `getattr`
defaults of the read accessors: `node_id` -1, `ref_name` empty,
`parent_distance` 0; the geometry attributes `_h_pos`/`_v_pos` report
`None` until a placement pass assigns them. -/
structure JPay where
  ref_name : String
  nid : Int
  pdist : ℚ
  h_pos : Option ℚ
  v_pos : Option ℚ
deriving Repr, DecidableEq

/-- A freshly constructed node, before any `handler_bare_text` call. -/
def freshJ : JPay := ⟨"", -1, 0, none, none⟩

/-- `s.split(":")` on a character list: split at every colon (an input
without colons yields one part, `n` colons yield `n + 1` parts). -/
def splitColon : List Char → List (List Char)
  | [] => [[]]
  | c :: rest =>
    if c = ':' then [] :: splitColon rest
    else
      match splitColon rest with
      | [] => [[c]]
      | p :: ps => (c :: p) :: ps

/-- The character class `[e.\-\d]` of the decoder's property pattern. -/
def isClassChar (c : Char) : Bool :=
  c == 'e' || c == '.' || c == '-' || c.isDigit

/-- `int()` on a nonempty digit run. -/
def digitsToNat (cs : List Char) : Nat :=
  cs.foldl (fun a c => a * 10 + (c.toNat - '0'.toNat)) 0

/-- `re.match(r"([e.\-\d]*)\x7b(\d+)\x7d(\[(\d+)\])?", props)` (the two
braces are literal).  `re.match` anchors only at the start: group 1 is
the maximal run over the class (the following literal brace lies outside
the class, so greedy matching never backtracks), group 2 a nonempty digit
run closed by the brace; the optional bracket group and any trailing
characters cannot fail the match and the code reads only groups 1 and 2.
Returns those two groups, or `none` when the pattern does not match. -/
def matchProps (props : List Char) : Option (List Char × List Char) :=
  let g1 := props.takeWhile isClassChar
  match props.dropWhile isClassChar with
  | '{' :: r2 =>
    match r2.takeWhile Char.isDigit, r2.dropWhile Char.isDigit with
    | [], _ => none
    | g2, '}' :: _ => some (g1, g2)
    | _, _ => none
  | _ => none

/-- The value `float(s)` parses, as an exact rational: an optional minus
sign, a digit run with an optional dot (at least one digit overall), and
an optional exponent `e[-]digits`.  Inputs reaching this call consist of
class characters only, which rules out `inf`/`nan`/`+`/whitespace
spellings. -/
def floatVal (neg : Bool) (ip fp : List Char) (e : Int) : ℚ :=
  let m : Int := (digitsToNat (ip ++ fp) : Int)
  let sm : Int := if neg then -m else m
  let scale : Int := e - (fp.length : Int)
  if 0 ≤ scale then ((sm * 10 ^ scale.toNat : Int) : ℚ)
  else mkRat sm (10 ^ (-scale).toNat)

/-- `float(s)`: `some` value on a well-formed literal, `none` when Python
raises `ValueError` (empty mantissa, stray characters, bad exponent). -/
def pyFloat (cs : List Char) : Option ℚ :=
  let sgn : Bool × List Char :=
    match cs with
    | '-' :: t => (true, t)
    | _ => (false, cs)
  let ip := sgn.2.takeWhile Char.isDigit
  let r1 := sgn.2.dropWhile Char.isDigit
  let frac : List Char × List Char :=
    match r1 with
    | '.' :: t => (t.takeWhile Char.isDigit, t.dropWhile Char.isDigit)
    | _ => ([], r1)
  if ip.isEmpty && frac.1.isEmpty then none
  else
    match frac.2 with
    | [] => some (floatVal sgn.1 ip frac.1 0)
    | 'e' :: t =>
      let esgn : Bool × List Char :=
        match t with
        | '-' :: t' => (true, t')
        | _ => (false, t)
      if esgn.2.isEmpty || !(esgn.2.all Char.isDigit) then none
      else
        some (floatVal sgn.1 ip frac.1
          (if esgn.1 then -(digitsToNat esgn.2 : Int) else (digitsToNat esgn.2 : Int)))
    | _ => none

/-- `JplaceTreeNode.handler_bare_text(s)`:
`name, props = s.split(":")` — exactly one colon yields the two parts;
any other colon count makes the tuple unpacking raise `ValueError`, and
the `except IndexError` handler that was meant to convert this case into
a `JplaceTreeFormatError` can never fire (`str.split` raises no
`IndexError`), so the `ValueError` escapes uncaught.  Then the property
pattern is matched (no match: `JplaceTreeFormatError`), the braced group
becomes `_nid`, and `float` of group 1 becomes `parent_distance`
(`ValueError` on e.g. an empty group 1).  On an error the payload is
returned unchanged (the exception aborts `parse`, so attribute writes
performed before raising are never observable through a returned
tree). -/
def handler_bare_text_jp (p : JPay) (s : List Char) : Except PErr JPay :=
  match splitColon s with
  | [name, props] =>
    match matchProps props with
    | none => .error .fmtError
    | some (g1, g2) =>
      match pyFloat g1 with
      | none => .error .valueError
      | some q => .ok { p with ref_name := ⟨name⟩, nid := (digitsToNat g2 : Int), pdist := q }
  | _ => .error .valueError

mutual
/-- `node_id` of every node in the subtree, in the pre-order of
`all_subtree_nodes` (self, then each child's subtree). -/
def nodeIds : PN JPay → List Int
  | .mk p _ _ ch => p.nid :: nodeIdsAll ch

def nodeIdsAll : List (PN JPay) → List Int
  | [] => []
  | t :: ts => nodeIds t ++ nodeIdsAll ts
end

/-- The duplicate check of the id-index build in `JplaceTree.parse`:
walking the ids in order, `assert i.node_id not in self._id_map` fails
exactly when some id repeats. -/
def idsUnique : List Int → Bool
  | [] => true
  | x :: xs => (!xs.contains x) && idsUnique xs

/-- `JplaceTree.parse(s)` (and `JplaceTreeGeo.parse`, inherited): the base
parse, then the id-index build over `all_nodes` whose assertion raises
`AssertionError` on a duplicate id. -/
def parseJplace (s : String) : Except PErr (PN JPay) :=
  match parse handler_bare_text_jp freshJ s with
  | .error e => .error e
  | .ok t => if idsUnique (nodeIds t) then .ok t else .error .assertError

/-! ### Geometry (`JplaceTreeNodeGeo` / `JplaceTreeGeo`) -/

/-- `child_hmin`: `children[0].h_pos`, or `self.h_pos` without
children. -/
def child_hmin (t : PN JPay) : Option ℚ :=
  match t.children with
  | [] => t.pay.h_pos
  | c :: _ => c.pay.h_pos

/-- `child_hmax`: `children[-1].h_pos`, or `self.h_pos` without
children. -/
def child_hmax (t : PN JPay) : Option ℚ :=
  match lastChild? t.children with
  | none => t.pay.h_pos
  | some c => c.pay.h_pos

mutual
/-- `place_h(start_pos)`: a leaf takes `start_pos` as its horizontal
position and returns `start_pos + 1`; an internal node places its
children left to right, threading the counter, then centers itself at
`(child_hmin + child_hmax) / 2` and returns the counter unchanged.  The
`getD` defaults are never read: both extremes belong to just-placed
children. -/
def place_h : PN JPay → ℚ → PN JPay × ℚ
  | .mk p st en [], start_pos =>
    (.mk { p with h_pos := some start_pos } st en [], start_pos + 1)
  | .mk p st en (c :: cs), start_pos =>
    let r := place_h_children (c :: cs) start_pos
    let tmp : PN JPay := .mk p st en r.1
    (.mk { p with
           h_pos := some (((child_hmin tmp).getD 0 + (child_hmax tmp).getD 0) / 2) }
      st en r.1, r.2)

def place_h_children : List (PN JPay) → ℚ → List (PN JPay) × ℚ
  | [], start_pos => ([], start_pos)
  | t :: ts, start_pos =>
    let r := place_h t start_pos
    let rs := place_h_children ts r.2
    (r.1 :: rs.1, rs.2)
end

mutual
/-- `place_v(parent_height)`: `v_pos = parent_height + parent_distance`,
then each child is placed from this node's `v_pos` (pre-order). -/
def place_v : PN JPay → ℚ → PN JPay
  | .mk p st en ch, parent_height =>
    let v := parent_height + p.pdist
    .mk { p with v_pos := some v } st en (place_v_children ch v)

def place_v_children : List (PN JPay) → ℚ → List (PN JPay)
  | [], _ => []
  | t :: ts, v => place_v t v :: place_v_children ts v
end

/-- `JplaceTreeGeo.place_nodes()`: `root.place_h(0)` (its returned counter
is discarded) followed by `root.place_v(0)`. -/
def place_nodes (t : PN JPay) : PN JPay :=
  place_v (place_h t 0).1 0


/-! ## Part 4: the annotated end-to-end example and the error-path
claims. -/

/-- The annotated example input `"(A:1{1},B:2{2}):0{0}"`. -/
def exInput : String := "(A:1{1},B:2{2}):0{0}"

/-- What `JplaceTreeGeo.load_string(exInput)` builds.  The implicit root
is never decoded (its payload keeps every default): when the input ends,
`parser_put_bare_text` runs on the root with its ready flag still cleared
from the top-level `(`, so the trailing `":0{0}"` annotates the root's
last (only) child — the group node, which receives id 0 and branch
length 0 and holds the leaves A and B. -/
def exTree : PN JPay :=
  .mk ⟨"", -1, 0, none, none⟩ (some 0) (some 20)
    [.mk ⟨"", 0, 0, none, none⟩ (some 0) (some 15)
      [.mk ⟨"A", 1, 1, none, none⟩ (some 7) (some 13) [],
       .mk ⟨"B", 2, 2, none, none⟩ (some 14) (some 20) []]]

/-- `exTree` after `place_nodes`: leaves A and B at horizontal positions
0 and 1 with vertical positions 1 and 2; the group node and the implicit
root both at horizontal 1/2 and vertical 0. -/
def exGeo : PN JPay :=
  .mk ⟨"", -1, 0, some (1/2), some 0⟩ (some 0) (some 20)
    [.mk ⟨"", 0, 0, some (1/2), some 0⟩ (some 0) (some 15)
      [.mk ⟨"A", 1, 1, some 0, some 1⟩ (some 7) (some 13) [],
       .mk ⟨"B", 2, 2, some 1, some 2⟩ (some 14) (some 20) []]]

/-- C2 counterexample: parsing `"(A:1{1},B:2{2}):0{0}"` does *not* yield
a root with identifier 0 and the two leaves as its children — the actual
root keeps the default identifier -1 and has exactly one child (the
annotated group node).  The trailing bare text is not delivered to the
root itself: the root's ready flag is false after the top-level group was
added, so `parser_put_bare_text` routes the text to that last child. -/
theorem parse_example_root_not_annotated :
    parseJplace exInput = .ok exTree ∧
      ¬(exTree.pay.nid = 0 ∧ (exTree.children).length = 2) :=
  ⟨by with_unfolding_all rfl, by decide⟩

/-- C2 (amended): bare text remaining at end of input is delivered by the
usual bare-text rule — to a new child of the root if the root is still
ready, otherwise as trailing annotation of the root's last child.  For
`"(A:1{1},B:2{2}):0{0}"` the result is an implicit undecoded root (id -1)
whose single child is the group node (id 0, branch length 0) with leaf
children A (id 1, branch 1) and B (id 2, branch 2); after the geometry
passes the horizontal positions are A=0, B=1, group=1/2, root=1/2 and the
vertical positions A=1, B=2, group=0, root=0. -/
theorem parse_example_structure_and_geometry :
    parseJplace exInput = .ok exTree ∧ place_nodes exTree = exGeo :=
  ⟨by with_unfolding_all rfl, by with_unfolding_all rfl⟩

/-- C5: on decoder text without a `:` (here `"A"`), the tuple unpacking
of `s.split(":")` raises a plain `ValueError`, which is *not* in the
`NewickFormatError` family — the `except IndexError` handler that was
meant to re-raise it as a `JplaceTreeFormatError` is dead code.  When the
part after the `:` fails the property pattern (here `"A:z"`), the decoder
does raise the family's `JplaceTreeFormatError`. -/
theorem handler_bare_text_error_classes :
    handler_bare_text_jp freshJ "A".data = .error .valueError ∧
      PErr.isFormatError .valueError = false ∧
      handler_bare_text_jp freshJ "A:z".data = .error .fmtError ∧
      PErr.isFormatError .fmtError = true :=
  ⟨rfl, rfl, rfl, rfl⟩

/-- C6 counterexample: for the accepted-shape input `"A:{3}"` with an
empty real-number part, decoding does not succeed with branch length 0 —
the property pattern matches (its first group may be empty), but
`float("")` raises `ValueError`. -/
theorem handler_bare_text_empty_real_fails :
    handler_bare_text_jp freshJ "A:{3}".data = .error .valueError ∧
      (handler_bare_text_jp freshJ "A:{3}".data).isOk = false :=
  ⟨rfl, rfl⟩

/-- C6 (amended): for every decoder input of the shape
`name:real{digits}suffix` — `name` and `suffix` free of `:`, `real` a
nonempty well-formed literal over the class `[e.\-\d]` that `float`
parses to `q`, `digits` a nonempty digit run, `suffix` arbitrary
otherwise (e.g. a bracketed integer, which is ignored) — decoding
succeeds and sets the label to `name`, the identifier to the braced
integer and the branch length to `q`.  An *empty* real part is rejected
(`float("")` raises), not defaulted to 0; see the counterexample. -/
theorem splitColon_colonFree (a : List Char) (h : ∀ c ∈ a, c ≠ ':') :
    splitColon a = [a] := by
  induction a with
  | nil => rfl
  | cons c a' ih =>
    have hc : ¬(c = ':') := h c (by simp)
    rw [splitColon, if_neg hc, ih (fun x hx => h x (by simp [hx]))]

theorem splitColon_append (a b : List Char) (h : ∀ c ∈ a, c ≠ ':') :
    splitColon (a ++ ':' :: b) = a :: splitColon b := by
  induction a with
  | nil =>
    rw [List.nil_append, splitColon, if_pos rfl]
  | cons c a' ih =>
    have hc : ¬(c = ':') := h c (by simp)
    rw [List.cons_append, splitColon, if_neg hc,
      ih (fun x hx => h x (by simp [hx]))]

theorem takeWhile_all_append (p : Char → Bool) (a : List Char) (b0 : Char)
    (rest : List Char) (ha : ∀ c ∈ a, p c = true) (hb : p b0 = false) :
    (a ++ b0 :: rest).takeWhile p = a := by
  induction a with
  | nil => simp [List.takeWhile, hb]
  | cons c a' ih =>
    rw [List.cons_append, List.takeWhile_cons, ha c (by simp),
      ih (fun x hx => ha x (by simp [hx]))]
    rfl

theorem dropWhile_all_append (p : Char → Bool) (a : List Char) (b0 : Char)
    (rest : List Char) (ha : ∀ c ∈ a, p c = true) (hb : p b0 = false) :
    (a ++ b0 :: rest).dropWhile p = b0 :: rest := by
  induction a with
  | nil => simp [List.dropWhile, hb]
  | cons c a' ih =>
    rw [List.cons_append, List.dropWhile_cons, ha c (by simp)]
    exact ih (fun x hx => ha x (by simp [hx]))

/-- C6 (amended): for every decoder input of the shape
`name:real{digits}suffix` — `name` and `suffix` free of `:`, `real` a
nonempty well-formed literal over the class `[e.\-\d]` that `float`
parses to `q`, `digits` a nonempty digit run, `suffix` arbitrary
otherwise (e.g. a bracketed integer, which is ignored) — decoding
succeeds and sets the label to `name`, the identifier to the braced
integer and the branch length to `q`.  An *empty* real part is rejected
(`float("")` raises), not defaulted to 0; see the counterexample. -/
theorem handler_bare_text_accepted_shape (p : JPay)
    (name r d suffix : List Char) (q : ℚ)
    (hn : ∀ c ∈ name, c ≠ ':')
    (hr : ∀ c ∈ r, isClassChar c = true)
    (hq : pyFloat r = some q)
    (hd : ∀ c ∈ d, c.isDigit = true) (hdne : d ≠ [])
    (hs : ∀ c ∈ suffix, c ≠ ':') :
    handler_bare_text_jp p (name ++ ':' :: (r ++ '{' :: (d ++ '}' :: suffix)))
      = .ok { p with ref_name := ⟨name⟩, nid := (digitsToNat d : Int), pdist := q } := by
  obtain ⟨dh, dt, rfl⟩ : ∃ dh dt, d = dh :: dt := by
    cases d with
    | nil => exact absurd rfl hdne
    | cons a b => exact ⟨a, b, rfl⟩
  have hclass_ne : ∀ c : Char, isClassChar c = true → c ≠ ':' := by
    intro c h h'
    subst h'
    exact absurd h (by decide)
  have hdig_ne : ∀ c : Char, c.isDigit = true → c ≠ ':' := by
    intro c h h'
    subst h'
    exact absurd h (by decide)
  have hPropsFree : ∀ c ∈ r ++ '{' :: ((dh :: dt) ++ '}' :: suffix), c ≠ ':' := by
    intro c hc
    rcases List.mem_append.mp hc with h | h
    · exact hclass_ne c (hr c h)
    · rcases List.mem_cons.mp h with h | h
      · subst h; decide
      · rcases List.mem_append.mp h with h | h
        · exact hdig_ne c (hd c h)
        · rcases List.mem_cons.mp h with h | h
          · subst h; decide
          · exact hs c h
  have h1 : splitColon (name ++ ':' :: (r ++ '{' :: ((dh :: dt) ++ '}' :: suffix)))
      = [name, r ++ '{' :: ((dh :: dt) ++ '}' :: suffix)] := by
    rw [splitColon_append _ _ hn, splitColon_colonFree _ hPropsFree]
  have h2 : (r ++ '{' :: ((dh :: dt) ++ '}' :: suffix)).takeWhile isClassChar = r :=
    takeWhile_all_append _ _ _ _ hr (by decide)
  have h3 : (r ++ '{' :: ((dh :: dt) ++ '}' :: suffix)).dropWhile isClassChar
      = '{' :: ((dh :: dt) ++ '}' :: suffix) :=
    dropWhile_all_append _ _ _ _ hr (by decide)
  have h4 : ((dh :: dt) ++ '}' :: suffix).takeWhile Char.isDigit = dh :: dt :=
    takeWhile_all_append _ _ _ _ hd (by decide)
  have h5 : ((dh :: dt) ++ '}' :: suffix).dropWhile Char.isDigit = '}' :: suffix :=
    dropWhile_all_append _ _ _ _ hd (by decide)
  have hmp : matchProps (r ++ '{' :: ((dh :: dt) ++ '}' :: suffix))
      = some (r, dh :: dt) := by
    simp only [matchProps, h2, h3, h4, h5]
  simp only [handler_bare_text_jp, h1, hmp, hq]

/-- Witness for `handler_bare_text_accepted_shape`: the decoder on
`"A:1.5{3}[7]"` yields label `"A"`, identifier 3, branch length 3/2, the
bracketed 7 ignored. -/
theorem handler_bare_text_accepted_shape_witness :
    handler_bare_text_jp freshJ "A:1.5{3}[7]".data
      = .ok ⟨"A", 3, 3/2, none, none⟩ := by
  exact handler_bare_text_accepted_shape freshJ
    ['A'] ['1', '.', '5'] ['3'] ['[', '7', ']'] (3/2)
    (by decide) (by decide) (by with_unfolding_all rfl) (by decide)
    (by decide) (by decide)

/-- C7: a `)` met while the current node is the root raises the orphan
`NewickFormatError` (input `"A)"`, and `"A:1{1})"` for the annotated
variant), and input exhaustion with the current node below the root
raises the unclosed-group `NewickFormatError` (input `"(A,B"`, and
`"(A:1{1}"` for the annotated variant); in each case no tree is
returned. -/
theorem parse_orphan_and_unclosed_errors :
    parseLite "A)" = .error (.orphan 1) ∧
      parseLite "(A,B" = .error (.unclosed 0) ∧
      parseJplace "A:1{1})" = .error (.orphan 6) ∧
      parseJplace "(A:1{1}" = .error (.unclosed 0) :=
  ⟨rfl, rfl, by with_unfolding_all rfl, by with_unfolding_all rfl⟩

/-- The tree instance state after `parse("(A,B")` fails: the root was
attached before the loop and is left holding the partially built group
(its `end` never set) with the already-decoded leaf `A`. -/
def c8broken : PN (Option (List Char)) :=
  .mk none (some 0) none
    [.mk none (some 0) none
      [.mk (some ['A']) (some 2) (some 3) []]]

/-- C8: `parse` is not atomic — after the failing `parse("(A,B")` the
instance holds the non-null partially built root `c8broken`, and every
subsequent `parse` call on the same instance (here the well-formed
`"(A,B)"`, and in general any input) raises the re-parsing-prohibited
`RuntimeError` even though no parse ever succeeded. -/
theorem parse_not_atomic_reparse_error :
    parseOn handler_bare_text_lite freshLite none "(A,B"
        = (some c8broken, .error (.unclosed 0)) ∧
      parseOn handler_bare_text_lite freshLite (some c8broken) "(A,B)"
        = (some c8broken, .error .reparse) ∧
      ∀ (s' : String),
        parseOn handler_bare_text_lite freshLite (some c8broken) s'
          = (some c8broken, .error .reparse) :=
  ⟨rfl, rfl, fun _ => rfl⟩

/-- C9: the pending bare-text run is delivered at `,`, `)` and end of
input even when empty.  With the plain decoder, `"(,)"` yields a group
with two empty-label leaves (the group itself also receives the empty
trailing run as its text).  With the annotated decoder an empty run is a
`ValueError` (no `:` to split on), so `"(A:1{1},B:2{2})"` — whose group
carries no trailing annotation — fails to parse. -/
theorem empty_bare_text_delivery :
    parseLite "(,)" =
        .ok (.mk none (some 0) (some 3)
          [.mk (some []) (some 0) (some 3)
            [.mk (some []) (some 1) (some 1) [],
             .mk (some []) (some 2) (some 2) []]]) ∧
      handler_bare_text_jp freshJ [] = .error .valueError ∧
      parseJplace "(A:1{1},B:2{2})" = .error .valueError :=
  ⟨rfl, rfl, by with_unfolding_all rfl⟩

/-- C10: on the empty input the `for pos, c in enumerate(s)` loop never
runs, so `root.parser_put_bare_text(pos, s[0:])` reads the unbound loop
variable `pos` — a `NameError` — instead of returning a tree; this holds
for every payload type and decoder. -/
theorem parse_empty_input_name_error :
    ∀ (α : Type) (dec : α → List Char → Except PErr α) (fr : α),
      parse dec fr "" = .error .nameError :=
  fun _ _ _ => rfl

/-! ## Part 5: the horizontal pass (C3). -/

theorem PN.pay_mk (p : α) (st en : Option Nat) (ch : List (PN α)) :
    (PN.mk p st en ch).pay = p := rfl

theorem PN.children_mk (p : α) (st en : Option Nat) (ch : List (PN α)) :
    (PN.mk p st en ch).children = ch := rfl

theorem lastChild?_cons_some (c : PN α) (cs : List (PN α)) :
    ∃ x, lastChild? (c :: cs) = some x := by
  induction cs generalizing c with
  | nil => exact ⟨c, rfl⟩
  | cons d ds ih =>
    obtain ⟨x, hx⟩ := ih d
    exact ⟨x, hx⟩

theorem child_hmin_cons (p : JPay) (st en : Option Nat) (c : PN JPay)
    (cs : List (PN JPay)) :
    child_hmin (.mk p st en (c :: cs)) = c.pay.h_pos := rfl

theorem child_hmax_cons (p : JPay) (st en : Option Nat) (c x : PN JPay)
    (cs : List (PN JPay)) (hx : lastChild? (c :: cs) = some x) :
    child_hmax (.mk p st en (c :: cs)) = x.pay.h_pos := by
  rw [child_hmax, PN.children_mk, hx]

mutual
/-- Number of leaves of the subtree (a childless node is its own leaf —
this is exactly the set of nodes on which `place_h` increments its
counter). -/
def numLeaves : PN JPay → Nat
  | .mk _ _ _ [] => 1
  | .mk _ _ _ (c :: cs) => numLeavesL (c :: cs)

def numLeavesL : List (PN JPay) → Nat
  | [] => 0
  | t :: ts => numLeaves t + numLeavesL ts
end

mutual
/-- The horizontal positions of the leaves in left-to-right (stored child
order, i.e. the order `place_h` visits them). -/
def leavesH : PN JPay → List ℚ
  | .mk p _ _ [] => [p.h_pos.getD 0]
  | .mk _ _ _ (c :: cs) => leavesHL (c :: cs)

def leavesHL : List (PN JPay) → List ℚ
  | [] => []
  | t :: ts => leavesH t ++ leavesHL ts
end

mutual
/-- Every internal node sits at `(child_hmin + child_hmax) / 2` — the
midpoint of its first and last direct child — recursively through the
subtree. -/
def centeredB : PN JPay → Bool
  | .mk _ _ _ [] => true
  | .mk p st en (c :: cs) =>
    (p.h_pos == some (((child_hmin (.mk p st en (c :: cs))).getD 0
        + (child_hmax (.mk p st en (c :: cs))).getD 0) / 2))
      && centeredAll (c :: cs)

def centeredAll : List (PN JPay) → Bool
  | [] => true
  | t :: ts => centeredB t && centeredAll ts
end

theorem cast_shift_map (s : ℚ) (a : Nat) (l : List Nat) :
    l.map (fun (i : Nat) => s + ((a + i : Nat) : ℚ))
      = l.map (fun (i : Nat) => (s + (a : ℚ)) + (i : ℚ)) := by
  apply List.map_congr_left
  intro i _
  push_cast
  ring

mutual
theorem place_h_spec (t : PN JPay) (s : ℚ) :
    (place_h t s).2 = s + (numLeaves t : ℚ) ∧
    leavesH (place_h t s).1
      = (List.range (numLeaves t)).map (fun (i : Nat) => s + (i : ℚ)) ∧
    centeredB (place_h t s).1 = true := by
  cases t with
  | mk p st en ch =>
    cases ch with
    | nil =>
      refine ⟨by simp [place_h, numLeaves], ?_, by simp [place_h, centeredB]⟩
      simp [place_h, numLeaves, leavesH, List.range_succ]
    | cons c cs =>
      obtain ⟨ih1, ih2, ih3, ih4⟩ := place_h_children_spec (c :: cs) s
      obtain ⟨c', cs', hr⟩ : ∃ c' cs',
          (place_h_children (c :: cs) s).1 = c' :: cs' := by
        cases hcc : (place_h_children (c :: cs) s).1 with
        | nil => rw [hcc] at ih4; exact absurd ih4 (by simp)
        | cons x xs => exact ⟨x, xs, rfl⟩
      have hplace : place_h (.mk p st en (c :: cs)) s
          = (.mk { p with h_pos := some (((child_hmin (.mk p st en (place_h_children (c :: cs) s).1)).getD 0
                + (child_hmax (.mk p st en (place_h_children (c :: cs) s).1)).getD 0) / 2) }
              st en (place_h_children (c :: cs) s).1,
             (place_h_children (c :: cs) s).2) := rfl
      obtain ⟨x, hx⟩ := lastChild?_cons_some c' cs'
      refine ⟨?_, ?_, ?_⟩
      · rw [hplace]
        simpa [numLeaves] using ih1
      · rw [hplace, hr, leavesH, ← hr, ih2, numLeaves]
      · rw [hplace, hr, child_hmin_cons, child_hmax_cons p st en c' x cs' hx,
          centeredB, child_hmin_cons, child_hmax_cons _ st en c' x cs' hx]
        refine (Bool.and_eq_true _ _).mpr ⟨?_, ?_⟩
        · exact beq_self_eq_true _
        · rw [← hr]
          exact ih3

theorem place_h_children_spec (l : List (PN JPay)) (s : ℚ) :
    (place_h_children l s).2 = s + (numLeavesL l : ℚ) ∧
    leavesHL (place_h_children l s).1
      = (List.range (numLeavesL l)).map (fun (i : Nat) => s + (i : ℚ)) ∧
    centeredAll (place_h_children l s).1 = true ∧
    (place_h_children l s).1.length = l.length := by
  cases l with
  | nil =>
    exact ⟨by simp [place_h_children, numLeavesL],
      by simp [place_h_children, numLeavesL, leavesHL],
      by simp [place_h_children, centeredAll], rfl⟩
  | cons t ts =>
    obtain ⟨iht1, iht2, iht3⟩ := place_h_spec t s
    obtain ⟨ihl1, ihl2, ihl3, ihl4⟩ := place_h_children_spec ts (place_h t s).2
    have hsplit : place_h_children (t :: ts) s
        = ((place_h t s).1 :: (place_h_children ts (place_h t s).2).1,
           (place_h_children ts (place_h t s).2).2) := rfl
    refine ⟨?_, ?_, ?_, ?_⟩
    · rw [hsplit, ihl1, iht1, numLeavesL]
      push_cast
      ring
    · rw [hsplit]
      rw [show leavesHL ((place_h t s).1 :: (place_h_children ts (place_h t s).2).1)
          = leavesH (place_h t s).1 ++ leavesHL (place_h_children ts (place_h t s).2).1 from rfl]
      rw [iht2, ihl2, iht1, numLeavesL, List.range_add, List.map_append,
        List.map_map]
      congr 1
      rw [show ((fun (i : Nat) => s + (i : ℚ)) ∘ (fun (x : Nat) => numLeaves t + x))
          = fun (i : Nat) => s + ((numLeaves t + i : Nat) : ℚ) from rfl]
      rw [cast_shift_map]
    · rw [hsplit]
      rw [show centeredAll ((place_h t s).1 :: (place_h_children ts (place_h t s).2).1)
          = (centeredB (place_h t s).1 && centeredAll (place_h_children ts (place_h t s).2).1) from rfl]
      rw [iht3, ihl3]
      rfl
    · rw [hsplit]
      simp [ihl4]
end

/-- C3: starting the horizontal pass at the root with counter 0, the
leaves' horizontal positions in left-to-right (stored child order,
post-order) are exactly the consecutive integers `0..L-1` — in
particular every leaf's position is an integer — the pass returns `L`
(the number of leaves; the counter is threaded through internal nodes
without increment), and every internal node sits at
`(first child's h_pos + last child's h_pos) / 2`.  Stated for every
tree, hence in particular for every parsed one. -/
theorem place_h_layout (t : PN JPay) :
    leavesH (place_h t 0).1
      = (List.range (numLeaves t)).map (fun (i : Nat) => (i : ℚ)) ∧
    (place_h t 0).2 = (numLeaves t : ℚ) ∧
    centeredB (place_h t 0).1 = true := by
  obtain ⟨h1, h2, h3⟩ := place_h_spec t 0
  refine ⟨?_, by simpa using h1, h3⟩
  rw [h2]
  simp

/-! ## Part 6: the vertical pass (C4). -/

mutual
/-- Every child's `v_pos` equals its parent's `v_pos` plus the child's
own `parent_distance`, recursively through the subtree (this is the
parent-child form of "vertical position = sum of branch lengths along
the path from the root"). -/
def v_chain_ok : PN JPay → Bool
  | .mk p _ _ ch => v_chain_okAll ch (p.v_pos.getD 0)

def v_chain_okAll : List (PN JPay) → ℚ → Bool
  | [], _ => true
  | c :: cs, pv =>
    (c.pay.v_pos == some (pv + c.pay.pdist))
      && (v_chain_ok c && v_chain_okAll cs pv)
end

theorem place_v_eq (p : JPay) (st en : Option Nat) (ch : List (PN JPay))
    (ph : ℚ) :
    place_v (.mk p st en ch) ph
      = .mk { p with v_pos := some (ph + p.pdist) } st en
          (place_v_children ch (ph + p.pdist)) := rfl

theorem place_v_pay_v (t : PN JPay) (ph : ℚ) :
    (place_v t ph).pay.v_pos = some (ph + t.pay.pdist) := by
  cases t with
  | mk p st en ch => rfl

theorem place_v_pay_pdist (t : PN JPay) (ph : ℚ) :
    (place_v t ph).pay.pdist = t.pay.pdist := by
  cases t with
  | mk p st en ch => rfl

mutual
theorem place_v_chain (t : PN JPay) (ph : ℚ) :
    v_chain_ok (place_v t ph) = true := by
  cases t with
  | mk p st en ch =>
    rw [place_v_eq, v_chain_ok]
    rw [show (({ p with v_pos := some (ph + p.pdist) } : JPay).v_pos).getD 0
        = ph + p.pdist from rfl]
    exact place_v_children_chain ch (ph + p.pdist)

theorem place_v_children_chain (l : List (PN JPay)) (pv : ℚ) :
    v_chain_okAll (place_v_children l pv) pv = true := by
  cases l with
  | nil => rfl
  | cons c cs =>
    rw [show place_v_children (c :: cs) pv
        = place_v c pv :: place_v_children cs pv from rfl, v_chain_okAll]
    refine (Bool.and_eq_true _ _).mpr ⟨?_, (Bool.and_eq_true _ _).mpr ⟨?_, ?_⟩⟩
    · rw [place_v_pay_v, place_v_pay_pdist]
      exact beq_self_eq_true _
    · exact place_v_chain c pv
    · exact place_v_children_chain cs pv
end

mutual
theorem place_v_idem (t : PN JPay) (a b : ℚ) :
    place_v (place_v t a) b = place_v t b := by
  cases t with
  | mk p st en ch =>
    rw [place_v_eq, place_v_eq, place_v_eq]
    rw [place_v_children_idem ch (a + p.pdist) (b + p.pdist)]

theorem place_v_children_idem (l : List (PN JPay)) (a b : ℚ) :
    place_v_children (place_v_children l a) b = place_v_children l b := by
  cases l with
  | nil => rfl
  | cons c cs =>
    rw [show place_v_children (c :: cs) a
        = place_v c a :: place_v_children cs a from rfl]
    rw [show place_v_children (place_v c a :: place_v_children cs a) b
        = place_v (place_v c a) b :: place_v_children (place_v_children cs a) b from rfl]
    rw [place_v_idem c a b, place_v_children_idem cs a b]
    rfl
end

theorem place_h_pdist (t : PN JPay) (s : ℚ) :
    (place_h t s).1.pay.pdist = t.pay.pdist := by
  cases t with
  | mk p st en ch => cases ch <;> rfl

/-! The root payload is never decoded: `parser_put_bare_text` on any
frame either creates a new child or hands the text to the last child, so
the frame's own payload — in particular the root's — survives the whole
parse unchanged. -/

/-- The payload of the bottom-most frame of the zipper (the root frame:
the current frame if the stack is empty, else the deepest stack entry). -/
def bottomPay : Frame α → List (Frame α) → α
  | cur, [] => cur.pay
  | _, f :: fs => bottomPay f fs

theorem bottomPay_congr (f g : Frame α) (stack : List (Frame α))
    (h : f.pay = g.pay) : bottomPay f stack = bottomPay g stack := by
  cases stack with
  | nil => exact h
  | cons a as => rfl

theorem parser_put_bare_text_pay (dec : α → List Char → Except PErr α)
    (fr : α) (pos : Nat) (txt : List Char) (f f' : Frame α)
    (h : parser_put_bare_text dec fr pos txt f = .ok f') :
    f'.pay = f.pay := by
  unfold parser_put_bare_text at h
  split at h
  · split at h
    · exact absurd h (by simp)
    · injection h with h
      subst h
      rfl
  · split at h
    · exact absurd h (by simp)
    · split at h
      · exact absurd h (by simp)
      · injection h with h
        subst h
        rfl

theorem parseStep_bottomPay (dec : α → List Char → Except PErr α) (fr : α)
    (c : Char) (pos : Nat) (pending : List Char) (cur : Frame α)
    (stack : List (Frame α)) (p' : List Char) (cur' : Frame α)
    (stack' : List (Frame α))
    (h : parseStep dec fr c pos pending cur stack = .ok (p', cur', stack')) :
    bottomPay cur' stack' = bottomPay cur stack := by
  unfold parseStep at h
  split at h
  · -- c = '('
    split at h
    · injection h with h
      injection h with h1 h2
      injection h2 with h2 h3
      subst h2; subst h3
      show bottomPay { cur with ready := false } stack = bottomPay cur stack
      exact bottomPay_congr _ _ _ rfl
    · exact absurd h (by simp)
  · split at h
    · -- c = ','
      split at h
      · exact absurd h (by simp)
      · rename_i cur1 hput
        injection h with h
        injection h with h1 h2
        injection h2 with h2 h3
        subst h2; subst h3
        exact bottomPay_congr { cur1 with ready := true } cur stack
          (parser_put_bare_text_pay dec fr pos pending cur cur1 hput)
    · split at h
      · -- c = ')'
        split at h
        · exact absurd h (by simp)
        · rename_i parent stk
          split at h
          · exact absurd h (by simp)
          · rename_i cur1 hput
            injection h with h
            injection h with h1 h2
            injection h2 with h2 h3
            subst h2; subst h3
            show bottomPay
                { parent with
                  children := parent.children
                    ++ [.mk cur1.pay cur1.startp (some (pos + 1)) cur1.children] }
                stk = bottomPay parent stk
            exact bottomPay_congr _ _ _ rfl
      · -- plain character
        injection h with h
        injection h with h1 h2
        injection h2 with h2 h3
        subst h2; subst h3
        rfl

theorem parseLoop_bottomPay (dec : α → List Char → Except PErr α) (fr : α) :
    ∀ (cs : List Char) (pos : Nat) (pending : List Char) (cur : Frame α)
      (stack : List (Frame α)) (r : List Char × Frame α × List (Frame α)),
      parseLoop dec fr cs pos pending cur stack = .ok r →
      bottomPay r.2.1 r.2.2 = bottomPay cur stack := by
  intro cs
  induction cs with
  | nil =>
    intro pos pending cur stack r h
    rw [parseLoop] at h
    injection h with h
    subst h
    rfl
  | cons c rest ih =>
    intro pos pending cur stack r h
    cases hstep : parseStep dec fr c pos pending cur stack with
    | error e =>
      rw [parseLoop, hstep] at h
      exact absurd h (by simp)
    | ok st1 =>
      obtain ⟨p1, cur1, stack1⟩ := st1
      rw [parseLoop, hstep] at h
      rw [ih _ _ _ _ _ h]
      exact parseStep_bottomPay dec fr c pos pending cur stack p1 cur1 stack1 hstep

/-- Nothing ever decodes into the root node: any `parse` call that
returns a tree returns one whose root payload is the freshly constructed
one (`parser_put_bare_text` on the root either creates a new child or
annotates the last child, never the root itself). -/
theorem parse_root_pay (dec : α → List Char → Except PErr α) (fr : α)
    (s : String) (t : PN α) (h : parse dec fr s = .ok t) : t.pay = fr := by
  unfold parse at h
  cases hfull : parseFull dec fr s with
  | error e =>
    rw [hfull] at h
    exact absurd h (by simp [Except.mapError])
  | ok t0 =>
    rw [hfull] at h
    rw [show (Except.ok t0 : Except (PErr × PN α) (PN α)).mapError Prod.fst
        = .ok t0 from rfl] at h
    injection h with h
    subst h
    unfold parseFull at hfull
    split at hfull
    · exact absurd hfull (by simp)
    · rename_i pending cur stack hloop
      split at hfull
      · exact absurd hfull (by simp)
      · split at hfull
        · exact absurd hfull (by simp)
        · split at hfull
          · exact absurd hfull (by simp)
          · rename_i cur1 hput
            injection hfull with hfull
            rw [← hfull, PN.pay_mk,
              parser_put_bare_text_pay _ _ _ _ _ _ hput]
            exact parseLoop_bottomPay dec fr s.data 0 []
              ⟨fr, some 0, true, []⟩ [] _ hloop

/-- C4: for every tree returned by the annotated parse, after
`place_nodes` the root's vertical position is 0 (the root is never
decoded, so its `parent_distance` keeps the default 0 and
`place_v(0)` writes `0 + 0`), every non-root node's vertical position is
its parent's vertical position plus the node's own branch length
(equivalently, the sum of branch lengths on the path from the root), and
re-running the vertical pass reproduces the tree unchanged
(idempotence). -/
theorem place_nodes_vertical (s : String) (t : PN JPay)
    (h : parseJplace s = .ok t) :
    (place_nodes t).pay.v_pos = some 0 ∧
    v_chain_ok (place_nodes t) = true ∧
    place_v (place_nodes t) 0 = place_nodes t := by
  have hroot : t.pay = freshJ := by
    unfold parseJplace at h
    cases hp : parse handler_bare_text_jp freshJ s with
    | error e =>
      rw [hp] at h
      exact absurd h (by simp)
    | ok t0 =>
      rw [hp] at h
      split at h
      · rename_i e heq
        exact absurd heq (by simp)
      · rename_i t1 heq
        injection heq with heq
        subst heq
        split at h
        · injection h with h
          subst h
          exact parse_root_pay _ _ _ _ hp
        · exact absurd h (by simp)
  have hpd : (place_h t 0).1.pay.pdist = 0 := by
    rw [place_h_pdist, hroot]
    rfl
  unfold place_nodes
  refine ⟨?_, place_v_chain _ 0, place_v_idem _ 0 0⟩
  rw [place_v_pay_v, hpd]
  norm_num

/-- Witness for `place_nodes_vertical`: the parsed example tree. -/
theorem place_nodes_vertical_witness :
    (place_nodes exTree).pay.v_pos = some 0 ∧
    v_chain_ok (place_nodes exTree) = true ∧
    place_v (place_nodes exTree) 0 = place_nodes exTree :=
  place_nodes_vertical exInput exTree (by with_unfolding_all rfl)
